import Mathlib

/-!
Verification of `src/support/webhooks-to-contexts.py`: the script that walks
GitHub's webhook OpenAPI schemas and produces a mapping of context patterns
(e.g. `github.event.pull_request.title`) to expansion capabilities
(`fixed` / `structured` / `arbitrary`).

The embedding represents a JSON schema object by the keys that `walk_schema`
inspects (`type`, `allOf`, `anyOf`, `oneOf`, `properties`,
`additionalProperties`, `items`, `format`, `enum`); a JSON object none of
whose modelled keys are present behaves, for every code path of
`walk_schema`, exactly like the empty dict `{}` (only the truthiness test
`if not items` distinguishes dicts, and keys outside the modelled set are
never read there in the source's inputs).

Python generator semantics are modelled by `WalkResult`: the list of pairs
yielded before termination, together with `none` for normal exhaustion or
`some msg` for an `assert False` raised mid-iteration (pairs already yielded
stand, later code of the generator does not run).
-/

/-- The `Capability` type of the script: `arbitrary`, `structured` or `fixed`. -/
inductive Capability where
  | fixed
  | structured
  | arbitrary
deriving DecidableEq, Repr

/-- The JSON value found under a `type` key: a single tag or a list of tags. -/
inductive TypeField where
  | single (t : String)
  | list (ts : List String)
deriving DecidableEq, Repr

/-- A JSON schema object, restricted to the keys `walk_schema` reads.
`Option` distinguishes an absent key from a present one; `additionalProperties`
holds either a JSON boolean (`Sum.inl`) or a sub-schema object (`Sum.inr`). -/
inductive Schema where
  | mk (type? : Option TypeField)
       (allOf? : Option (List Schema))
       (anyOf? : Option (List Schema))
       (oneOf? : Option (List Schema))
       (properties? : Option (List (String × Schema)))
       (additionalProperties? : Option (Bool ⊕ Schema))
       (items? : Option Schema)
       (format? : Option String)
       (hasEnum : Bool)

def Schema.type? : Schema → Option TypeField
  | .mk t _ _ _ _ _ _ _ _ => t

def Schema.allOf? : Schema → Option (List Schema)
  | .mk _ a _ _ _ _ _ _ _ => a

def Schema.anyOf? : Schema → Option (List Schema)
  | .mk _ _ a _ _ _ _ _ _ => a

def Schema.oneOf? : Schema → Option (List Schema)
  | .mk _ _ _ o _ _ _ _ _ => o

def Schema.properties? : Schema → Option (List (String × Schema))
  | .mk _ _ _ _ p _ _ _ _ => p

def Schema.additionalProperties? : Schema → Option (Bool ⊕ Schema)
  | .mk _ _ _ _ _ ap _ _ _ => ap

def Schema.items? : Schema → Option Schema
  | .mk _ _ _ _ _ _ i _ _ => i

def Schema.format? : Schema → Option String
  | .mk _ _ _ _ _ _ _ f _ => f

def Schema.hasEnum : Schema → Bool
  | .mk _ _ _ _ _ _ _ _ e => e

/-- The empty JSON object `{}` as a schema: no key present.  Python's
`if not items` is true exactly on this value (and on an absent key). -/
def Schema.isEmptyDict (s : Schema) : Bool :=
  s.type?.isNone && s.allOf?.isNone && s.anyOf?.isNone && s.oneOf?.isNone &&
  s.properties?.isNone && s.additionalProperties?.isNone && s.items?.isNone &&
  s.format?.isNone && !s.hasEnum

/-- The value of the local variable `typ` after the `isinstance(typ, list)`
branch of `walk_schema` has been passed: Python `None`, a single string tag,
or an empty list that fell through the `for` loop. -/
inductive TypView where
  | noTag
  | single (t : String)
  | emptyList
deriving DecidableEq, Repr

/-- Pairs yielded by the generator so far, and `some msg` when an
`assert False` fired (aborting the generator) before it was exhausted. -/
abbrev WalkResult := List (String × Capability) × Option String

/-- Sequencing of two generator stages: if the first stage raised, the
second never runs; otherwise their yields concatenate. -/
def wseq (r : WalkResult) (k : Unit → WalkResult) : WalkResult :=
  match r with
  | (ps, some e) => (ps, some e)
  | (ps, none) =>
    match k () with
    | (qs, e) => (ps ++ qs, e)

/-- The `match additional_properties:` statement of the object branch.
Python's mapping pattern `{}` matches *any* dict, so a sub-schema value
(`Sum.inr`) lands in the `True | {}` arm and yields the wildcard leaf; the
`assert False` arm is reachable only for values that are neither booleans,
dicts nor `None`, which a JSON schema never holds. -/
def objAdditional (schema : Schema) (top : String) : WalkResult :=
  match schema.additionalProperties? with
  | some (.inl true) => ([(top ++ ".*", .arbitrary)], none)
  | some (.inr _) => ([(top ++ ".*", .arbitrary)], none)
  | some (.inl false) => ([], none)
  | none => ([], none)

/-- The `case "string":` branch: dispatch on `schema.get("format")`. -/
def strFormat (schema : Schema) (top : String) : WalkResult :=
  match schema.format? with
  | some "date-time" => ([(top, .fixed)], none)
  | some "uri" => ([(top, .structured)], none)
  | some "uri-template" => ([(top, .structured)], none)
  | some "email" => ([(top, .structured)], none)
  | none =>
    if schema.hasEnum then ([(top, .fixed)], none)
    else ([(top, .arbitrary)], none)
  | some _ => ([], some "Unknown string format")

mutual

/-- Function `walk_schema(schema, top)` of the script, called with the default
`typ=None`.  Resolves `typ = schema.get("type")`; when `typ` is a non-empty
list the source's `return` sits *inside* the `for` loop, so only the first
alternative tag is walked (with the same schema object and path); an empty
list falls through the loop into the body. -/
def walk_schema (schema : Schema) (top : String) : WalkResult :=
  match h : schema.type? with
  | none => walk_typed schema top .noTag
  | some (.single t) => walk_typed schema top (.single t)
  | some (.list []) => walk_typed schema top .emptyList
  | some (.list (t :: _)) => walk_typed schema top (.single t)
termination_by 8 * sizeOf schema + 7
decreasing_by
  all_goals simp_wf
  all_goals omega

/-- The body of `walk_schema` from the `allOf`/`anyOf`/`oneOf` check on,
with `typ` already resolved to a non-list view (this is also what the
recursive call `walk_schema(schema, top, typ=subtype)` executes, since its
`typ` is a single tag).  Only the first composition key present is honored. -/
def walk_typed (schema : Schema) (top : String) (typ : TypView) : WalkResult :=
  match h1 : schema.allOf? with
  | some subs => walk_subs subs top
  | none =>
  match h2 : schema.anyOf? with
  | some subs => walk_subs subs top
  | none =>
  match h3 : schema.oneOf? with
  | some subs => walk_subs subs top
  | none => walk_match schema top typ
termination_by 8 * sizeOf schema + 6
decreasing_by
  all_goals simp_wf
  all_goals first
  | omega
  | (cases schema with
     | mk t a an o pr ap it fo en =>
       first
       | (simp [Schema.allOf?] at h1; subst h1; simp; omega)
       | (simp [Schema.anyOf?] at h2; subst h2; simp; omega)
       | (simp [Schema.oneOf?] at h3; subst h3; simp; omega))

/-- The `match typ:` statement of `walk_schema`. -/
def walk_match (schema : Schema) (top : String) (typ : TypView) : WalkResult :=
  match typ with
  | .single "object" =>
    wseq (objProps schema top) (fun _ => objAdditional schema top)
  | .single "array" => arrItems schema top
  | .single "boolean" => ([(top, .fixed)], none)
  | .single "integer" => ([(top, .fixed)], none)
  | .single "number" => ([(top, .fixed)], none)
  | .single "null" => ([(top, .fixed)], none)
  | .single "string" => strFormat schema top
  | _ => ([], some "Unknown schema type")
termination_by 8 * sizeOf schema + 5
decreasing_by
  all_goals simp_wf
  all_goals omega

/-- The `properties` part of the object branch: an empty or absent
`properties` dict makes the object itself one `arbitrary` leaf, otherwise
each declared property is walked at `<top>.<prop>`. -/
def objProps (schema : Schema) (top : String) : WalkResult :=
  match h4 : schema.properties? with
  | none => ([(top, .arbitrary)], none)
  | some [] => ([(top, .arbitrary)], none)
  | some ((prop, ps) :: rest) => walk_props ((prop, ps) :: rest) top
termination_by 8 * sizeOf schema + 4
decreasing_by
  all_goals simp_wf
  cases schema with
  | mk t a an o pr2 ap it fo en =>
    simp [Schema.properties?] at h4
    subst h4
    simp
    omega

/-- The `case "array":` branch: `items` must be a present, non-empty
schema, which is walked at `<top>.*`; otherwise `assert False`. -/
def arrItems (schema : Schema) (top : String) : WalkResult :=
  match h5 : schema.items? with
  | none => ([], some "Empty array schema")
  | some it =>
    if it.isEmptyDict then ([], some "Empty array schema")
    else walk_schema it (top ++ ".*")
termination_by 8 * sizeOf schema + 4
decreasing_by
  all_goals simp_wf
  cases schema with
  | mk t a an o pr ap it2 fo en =>
    simp [Schema.items?] at h5
    subst h5
    simp
    omega

/-- The loop `for prop, prop_schema in properties.items(): yield from
walk_schema(prop_schema, f"{top}.{prop}")`. -/
def walk_props (l : List (String × Schema)) (top : String) : WalkResult :=
  match l with
  | [] => ([], none)
  | (prop, ps) :: rest =>
    wseq (walk_schema ps (top ++ "." ++ prop)) (fun _ => walk_props rest top)
termination_by 8 * sizeOf l
decreasing_by
  all_goals simp_wf
  all_goals omega

/-- The loop `for subtype in schema[subschema]: yield from
walk_schema(subtype, top)` of the `allOf`/`anyOf`/`oneOf` branch. -/
def walk_subs (l : List Schema) (top : String) : WalkResult :=
  match l with
  | [] => ([], none)
  | s :: rest =>
    wseq (walk_schema s top) (fun _ => walk_subs rest top)
termination_by 8 * sizeOf l
decreasing_by
  all_goals simp_wf
  all_goals omega

end

/-- The `typ` view `walk_schema` dispatches on, as a function of the
schema's `type` key. -/
def typView : Option TypeField → TypView
  | none => .noTag
  | some (.single t) => .single t
  | some (.list []) => .emptyList
  | some (.list (t :: _)) => .single t

/-- Function `unify_capabilities(old, new)` of the script: `caps = {old, new}`;
`"arbitrary"` wins, then `"structured"`, otherwise `old` (both then being
`"fixed"`). -/
def unify_capabilities (old new : Capability) : Capability :=
  if old = .arbitrary ∨ new = .arbitrary then .arbitrary
  else if old = .structured ∨ new = .structured then .structured
  else old

/-- Rank of a capability in the permissiveness order
`fixed < structured < arbitrary`. -/
def capRank : Capability → Nat
  | .fixed => 0
  | .structured => 1
  | .arbitrary => 2

/-- The `patterns_to_capabilities` dict, viewed by lookup. -/
def PMap := String → Option Capability

/-- Assignment `patterns_to_capabilities[pattern] = cap`. -/
def insertPattern (m : PMap) (pattern : String) (cap : Capability) : PMap :=
  fun q => if q = pattern then some cap else m q

/-- The statement `if old_cap := patterns_to_capabilities.get(pattern): cap =
unify_capabilities(old_cap, cap)` — the stored value for one incoming pair,
given the current entry (capability strings are always truthy, so the walrus
test is presence of the key). -/
def mergeCap (old? : Option Capability) (cap : Capability) : Capability :=
  match old? with
  | some old => unify_capabilities old cap
  | none => cap

/-- The body of the `for pattern, cap in walk_schema(...)` loop of
`process_schemas`, over an already-materialised pair list: each pair is
unified with the existing entry (if any) and stored. -/
def insertPairs (m : PMap) : List (String × Capability) → PMap
  | [] => m
  | (pattern, cap) :: rest =>
    insertPairs (insertPattern m pattern (mergeCap (m pattern) cap)) rest

/-- Function `process_schemas(event, schemas, patterns_to_capabilities)`: walks every
schema from `top = "github.event"` and merges the yielded pairs into the
mapping.  The `Option String` part records an `assert False` aborting the
run: pairs yielded before it are already in the mapping, later schemas are
not processed. -/
def process_schemas (event : String) (schemas : List Schema) (m : PMap) :
    PMap × Option String :=
  match schemas with
  | [] => (m, none)
  | s :: rest =>
    match walk_schema s "github.event" with
    | (pairs, err) =>
      match err with
      | some e => (insertPairs m pairs, some e)
      | none => process_schemas event rest (insertPairs m pairs)

/-- The `for event, schemas in schemas_for_event.items()` loop of
`__main__`: one `process_schemas` call per event. -/
def process_all (sets : List (String × List Schema)) (m : PMap) :
    PMap × Option String :=
  match sets with
  | [] => (m, none)
  | (event, schemas) :: rest =>
    match process_schemas event schemas m with
    | (m', some e) => (m', some e)
    | (m', none) => process_all rest m'

/-- The `for context in safe_contexts: patterns_to_capabilities[context] =
"fixed"` override loop of `__main__`. -/
def applyOverrides (m : PMap) : List String → PMap
  | [] => m
  | c :: rest => applyOverrides (insertPattern m c .fixed) rest

/-- The mapping computed by `__main__` right before the CSV is written:
aggregation over all events' schema lists starting from the empty dict,
then the known-safe-context overrides.  `some msg` when an assertion
aborted the run before the overrides were applied. -/
def main_mapping (sets : List (String × List Schema))
    (safeContexts : List String) : PMap × Option String :=
  match process_all sets (fun _ => none) with
  | (m, some e) => (m, some e)
  | (m, none) => (applyOverrides m safeContexts, none)

/-- Left fold of `unify_capabilities` over a list of contributed
capabilities, starting from an optional existing entry — the shape in which
`insertPairs` accumulates the mapping entry of one pattern. -/
def accumulate (acc : Option Capability) : List Capability → Option Capability
  | [] => acc
  | c :: rest => accumulate (some (mergeCap acc c)) rest

/-- The capabilities contributed to `pattern` by a pair list. -/
def contribsOf (pairs : List (String × Capability)) (pattern : String) :
    List Capability :=
  pairs.filterMap (fun pr => if pr.1 = pattern then some pr.2 else none)

/-- All pairs yielded while walking every schema of every event, in
processing order. -/
def allPairs (sets : List (String × List Schema)) :
    List (String × Capability) :=
  sets.flatMap (fun st => st.2.flatMap (fun s => (walk_schema s "github.event").1))


def permPairsA : List (String × Capability) :=
  [("github.event.a", .arbitrary), ("github.event.b", .fixed),
   ("github.event.a", .structured)]

def permPairsB : List (String × Capability) :=
  [("github.event.a", .structured), ("github.event.a", .arbitrary),
   ("github.event.b", .fixed)]

/-- Path `p` lies at or below the path prefix `top`: it is `top` itself or
`top` followed by `"."` and a suffix. -/
def extendsPath (top p : String) : Prop :=
  p = top ∨ ∃ suf, p = top ++ "." ++ suf

/-- The empty JSON object `{}`. -/
def emptySchemaW : Schema := .mk none none none none none none none none false

/-- Schema `{"type": "boolean"}`. -/
def boolSchemaW : Schema :=
  .mk (some (.single "boolean")) none none none none none none none false

/-- Schema `{"type": "string"}` (no format, no enum). -/
def strPlainSchemaW : Schema :=
  .mk (some (.single "string")) none none none none none none none false

/-- Schema `{"type": "string", "enum": [...]}`. -/
def strEnumSchemaW : Schema :=
  .mk (some (.single "string")) none none none none none none none true

/-- Schema `{"type": ["string", "null"]}` — the type-union example of the spec. -/
def strNullSchemaW : Schema :=
  .mk (some (.list ["string", "null"])) none none none none none none none false

/-- Schema `{"type": "object", "additionalProperties": {"type": "string"}}` — an
object whose `additionalProperties` is a real constraining sub-schema. -/
def apObjSchemaW : Schema :=
  .mk (some (.single "object")) none none none none
    (some (.inr strPlainSchemaW)) none none false

/-- Schema `{"type": "object", "properties": {"name": {"type": "string"}}}`. -/
def nameObjSchemaW : Schema :=
  .mk (some (.single "object")) none none none
    (some [("name", strPlainSchemaW)]) none none none false

/-- Schema `{"type": "array", "items": {"type": "object", "properties": {"name":
{"type": "string"}}}}` — the array-of-objects example of the spec. -/
def arrObjSchemaW : Schema :=
  .mk (some (.single "array")) none none none none none
    (some nameObjSchemaW) none false

/-- Schema `{"type": "array", "items": {}}` — the malformed array example. -/
def arrEmptySchemaW : Schema :=
  .mk (some (.single "array")) none none none none none
    (some emptySchemaW) none false

/-- A schema with both `allOf` and object-type content, to show the
composition branch preempts the type dispatch:
`{"type": "object", "properties": {"name": ...}, "allOf": [{"type":
"boolean"}]}`. -/
def allOfObjSchemaW : Schema :=
  .mk (some (.single "object")) (some [boolSchemaW]) none none
    (some [("name", strPlainSchemaW)]) none none none false

/-- A one-event schema-set list for concrete aggregation runs. -/
def setsW : List (String × List Schema) := [("push", [boolSchemaW])]

/-- A known-safe-context override list for concrete aggregation runs. -/
def safeW : List String := ["zizmor.known"]

/-- A starting mapping with one pre-existing entry, to exercise the frame
property of `process_schemas`. -/
def keepMapW : PMap :=
  fun q => if q = "keep.me" then some Capability.structured else none

theorem walk_schema_view (s : Schema) (top : String) :
    walk_schema s top = walk_typed s top (typView s.type?) := by
  rw [walk_schema.eq_def]
  split <;> rename_i h <;> rw [h] <;> rfl

theorem walk_typed_noComp (s : Schema) (top : String) (typ : TypView)
    (hA : s.allOf? = none) (hAn : s.anyOf? = none) (hO : s.oneOf? = none) :
    walk_typed s top typ = walk_match s top typ := by
  rw [walk_typed.eq_def]
  split
  · rename_i subs h; rw [hA] at h; exact Option.noConfusion h
  split
  · rename_i subs h; rw [hAn] at h; exact Option.noConfusion h
  split
  · rename_i subs h; rw [hO] at h; exact Option.noConfusion h
  rfl

theorem walk_typed_allOf (s : Schema) (top : String) (typ : TypView)
    (subs : List Schema) (h : s.allOf? = some subs) :
    walk_typed s top typ = walk_subs subs top := by
  rw [walk_typed.eq_def]
  split
  · rename_i subs' h'
    rw [h] at h'
    rw [Option.some_inj.mp h']
  · rename_i h'
    rw [h] at h'
    exact Option.noConfusion h'

theorem walk_typed_anyOf (s : Schema) (top : String) (typ : TypView)
    (subs : List Schema) (hA : s.allOf? = none) (h : s.anyOf? = some subs) :
    walk_typed s top typ = walk_subs subs top := by
  rw [walk_typed.eq_def]
  split
  · rename_i subs' h'; rw [hA] at h'; exact Option.noConfusion h'
  split
  · rename_i subs' h'
    rw [h] at h'
    rw [Option.some_inj.mp h']
  · rename_i h'
    rw [h] at h'
    exact Option.noConfusion h'

theorem walk_typed_oneOf (s : Schema) (top : String) (typ : TypView)
    (subs : List Schema) (hA : s.allOf? = none) (hAn : s.anyOf? = none)
    (h : s.oneOf? = some subs) :
    walk_typed s top typ = walk_subs subs top := by
  rw [walk_typed.eq_def]
  split
  · rename_i subs' h'; rw [hA] at h'; exact Option.noConfusion h'
  split
  · rename_i subs' h'; rw [hAn] at h'; exact Option.noConfusion h'
  split
  · rename_i subs' h'
    rw [h] at h'
    rw [Option.some_inj.mp h']
  · rename_i h'
    rw [h] at h'
    exact Option.noConfusion h'

theorem objProps_absent (s : Schema) (top : String)
    (h : s.properties? = none) :
    objProps s top = ([(top, .arbitrary)], none) := by
  rw [objProps.eq_def]
  split
  · rfl
  · rfl
  · rename_i prop ps rest h'
    rw [h] at h'
    exact Option.noConfusion h'

theorem objProps_nil (s : Schema) (top : String)
    (h : s.properties? = some []) :
    objProps s top = ([(top, .arbitrary)], none) := by
  rw [objProps.eq_def]
  split
  · rfl
  · rfl
  · rename_i prop ps rest h'
    rw [h] at h'
    exact List.noConfusion (Option.some_inj.mp h')

theorem objProps_cons (s : Schema) (top : String) (prop : String)
    (ps : Schema) (rest : List (String × Schema))
    (h : s.properties? = some ((prop, ps) :: rest)) :
    objProps s top = walk_props ((prop, ps) :: rest) top := by
  rw [objProps.eq_def]
  split
  · rename_i h'; rw [h] at h'; exact Option.noConfusion h'
  · rename_i h'
    rw [h] at h'
    exact List.noConfusion (Option.some_inj.mp h')
  · rename_i prop' ps' rest' h'
    rw [h] at h'
    rw [Option.some_inj.mp h']

theorem arrItems_absent (s : Schema) (top : String) (h : s.items? = none) :
    arrItems s top = ([], some "Empty array schema") := by
  rw [arrItems.eq_def]
  split
  · rfl
  · rename_i it h'
    rw [h] at h'
    exact Option.noConfusion h'

theorem arrItems_present (s : Schema) (top : String) (it : Schema)
    (h : s.items? = some it) :
    arrItems s top
      = if it.isEmptyDict then ([], some "Empty array schema")
        else walk_schema it (top ++ ".*") := by
  rw [arrItems.eq_def]
  split
  · rename_i h'; rw [h] at h'; exact Option.noConfusion h'
  · rename_i it' h'
    rw [h] at h'
    rw [Option.some_inj.mp h']

theorem unify_capabilities_comm (a b : Capability) :
    unify_capabilities a b = unify_capabilities b a := by
  cases a <;> cases b <;> rfl

theorem unify_capabilities_assoc (a b c : Capability) :
    unify_capabilities (unify_capabilities a b) c
      = unify_capabilities a (unify_capabilities b c) := by
  cases a <;> cases b <;> cases c <;> rfl

theorem unify_capabilities_idem (a : Capability) :
    unify_capabilities a a = a := by
  cases a <;> rfl

theorem capRank_unify (a b : Capability) :
    capRank (unify_capabilities a b) = max (capRank a) (capRank b) := by
  cases a <;> cases b <;> rfl

theorem unify_capabilities_eq_or (a b : Capability) :
    unify_capabilities a b = a ∨ unify_capabilities a b = b := by
  cases a <;> cases b <;> simp [unify_capabilities]

theorem capRank_le_iff {a b : Capability} :
    capRank a ≤ capRank b ↔ unify_capabilities b a = b := by
  cases a <;> cases b <;> simp [capRank, unify_capabilities]

theorem contribsOf_cons (q : String) (c : Capability)
    (rest : List (String × Capability)) (p : String) :
    contribsOf ((q, c) :: rest) p
      = if q = p then c :: contribsOf rest p else contribsOf rest p := by
  by_cases h : q = p <;> simp [contribsOf, List.filterMap_cons, h]

theorem contribsOf_append (l l' : List (String × Capability)) (p : String) :
    contribsOf (l ++ l') p = contribsOf l p ++ contribsOf l' p := by
  simp [contribsOf, List.filterMap_append]

theorem accumulate_append (acc : Option Capability) (l l' : List Capability) :
    accumulate acc (l ++ l') = accumulate (accumulate acc l) l' := by
  induction l generalizing acc with
  | nil => rfl
  | cons c rest ih => simp [accumulate, ih]

/-- Function `insertPairs` changes the entry of a pattern exactly to the
`unify_capabilities` fold of the capabilities contributed to it. -/
theorem insertPairs_lookup (pairs : List (String × Capability)) (m : PMap)
    (p : String) :
    insertPairs m pairs p = accumulate (m p) (contribsOf pairs p) := by
  induction pairs generalizing m with
  | nil => rfl
  | cons pr rest ih =>
    obtain ⟨q, c⟩ := pr
    rw [insertPairs, ih, contribsOf_cons]
    by_cases hq : q = p
    · subst hq
      simp [accumulate, insertPattern]
    · have hq' : ¬p = q := fun hh => hq hh.symm
      simp [insertPattern, hq, hq']

theorem process_schemas_lookup (event : String) (ss : List Schema) (m : PMap)
    (h : (process_schemas event ss m).2 = none) (p : String) :
    (process_schemas event ss m).1 p
      = accumulate (m p)
          (contribsOf (ss.flatMap (fun s => (walk_schema s "github.event").1)) p) := by
  induction ss generalizing m with
  | nil => simp [process_schemas, contribsOf, accumulate]
  | cons s rest ih =>
    rcases hw : walk_schema s "github.event" with ⟨pairs, err⟩
    cases err with
    | some e =>
      simp only [process_schemas, hw] at h
      exact Option.noConfusion h
    | none =>
      simp only [process_schemas, hw] at h ⊢
      rw [ih _ h, insertPairs_lookup, List.flatMap_cons, contribsOf_append,
        accumulate_append, hw]

theorem allPairs_cons (event : String) (ss : List Schema)
    (rest : List (String × List Schema)) :
    allPairs ((event, ss) :: rest)
      = ss.flatMap (fun s => (walk_schema s "github.event").1) ++ allPairs rest := by
  simp [allPairs]

theorem process_all_lookup (sets : List (String × List Schema)) (m : PMap)
    (h : (process_all sets m).2 = none) (p : String) :
    (process_all sets m).1 p = accumulate (m p) (contribsOf (allPairs sets) p) := by
  induction sets generalizing m with
  | nil => simp [process_all, allPairs, contribsOf, accumulate]
  | cons st rest ih =>
    obtain ⟨event, ss⟩ := st
    rcases hp : process_schemas event ss m with ⟨m', err⟩
    cases err with
    | some e =>
      simp only [process_all, hp] at h
      exact Option.noConfusion h
    | none =>
      simp only [process_all, hp] at h ⊢
      have hm' : m' p
          = accumulate (m p)
              (contribsOf (ss.flatMap (fun s => (walk_schema s "github.event").1)) p) := by
        have h2 := process_schemas_lookup event ss m (by rw [hp]) p
        rwa [hp] at h2
      rw [ih _ h, hm', allPairs_cons, contribsOf_append, accumulate_append]

theorem applyOverrides_lookup_not_mem (ctxs : List String) (m : PMap)
    (p : String) (h : p ∉ ctxs) : applyOverrides m ctxs p = m p := by
  induction ctxs generalizing m with
  | nil => rfl
  | cons c rest ih =>
    simp at h
    rw [applyOverrides, ih _ h.2]
    simp [insertPattern, h.1]

theorem applyOverrides_lookup_mem (ctxs : List String) (m : PMap)
    (p : String) (h : p ∈ ctxs) : applyOverrides m ctxs p = some .fixed := by
  induction ctxs generalizing m with
  | nil => simp at h
  | cons c rest ih =>
    rw [applyOverrides]
    by_cases hr : p ∈ rest
    · exact ih _ hr
    · have hc : p = c := by
        rcases List.mem_cons.mp h with h1 | h1
        · exact h1
        · exact absurd h1 hr
      subst hc
      rw [applyOverrides_lookup_not_mem _ _ _ hr]
      simp [insertPattern]

/-- The fold of `unify_capabilities` over a contribution list computes its
most permissive element (starting from an existing entry, which also
participates). -/
theorem accumulate_some_max (caps : List Capability) (acc c : Capability)
    (h : accumulate (some acc) caps = some c) :
    (c = acc ∨ c ∈ caps) ∧ capRank acc ≤ capRank c ∧
      ∀ d ∈ caps, capRank d ≤ capRank c := by
  induction caps generalizing acc with
  | nil =>
    simp [accumulate] at h
    subst h
    simp
  | cons x rest ih =>
    rw [accumulate] at h
    have hm : mergeCap (some acc) x = unify_capabilities acc x := rfl
    rw [hm] at h
    obtain ⟨h1, h2, h3⟩ := ih (unify_capabilities acc x) h
    have hrank : capRank (unify_capabilities acc x)
        = max (capRank acc) (capRank x) := capRank_unify acc x
    refine ⟨?_, ?_, ?_⟩
    · rcases h1 with h1 | h1
      · rcases unify_capabilities_eq_or acc x with he | he
        · exact Or.inl (h1.trans he)
        · exact Or.inr (by rw [h1, he]; exact List.mem_cons_self x rest)
      · exact Or.inr (List.mem_cons_of_mem x h1)
    · omega
    · intro d hd
      rcases List.mem_cons.mp hd with hd | hd
      · subst hd
        omega
      · exact h3 d hd

theorem accumulate_none_max (caps : List Capability) (c : Capability)
    (h : accumulate none caps = some c) :
    c ∈ caps ∧ ∀ d ∈ caps, capRank d ≤ capRank c := by
  cases caps with
  | nil => simp [accumulate] at h
  | cons x rest =>
    rw [accumulate] at h
    have hm : mergeCap none x = x := rfl
    rw [hm] at h
    obtain ⟨h1, h2, h3⟩ := accumulate_some_max rest x c h
    refine ⟨?_, ?_⟩
    · rcases h1 with h1 | h1
      · rw [h1]; exact List.mem_cons_self x rest
      · exact List.mem_cons_of_mem x h1
    · intro d hd
      rcases List.mem_cons.mp hd with hd | hd
      · subst hd; exact h2
      · exact h3 d hd


theorem mergeCap_swap (acc : Option Capability) (x y : Capability) :
    mergeCap (some (mergeCap acc x)) y = mergeCap (some (mergeCap acc y)) x := by
  rcases acc with _ | a
  · cases x <;> cases y <;> rfl
  · cases a <;> cases x <;> cases y <;> rfl

theorem accumulate_perm {l1 l2 : List Capability} (h : l1.Perm l2) :
    ∀ acc : Option Capability, accumulate acc l1 = accumulate acc l2 := by
  induction h with
  | nil => intro acc; rfl
  | cons x _ ih => intro acc; rw [accumulate, accumulate, ih]
  | swap x y l => intro acc; rw [accumulate, accumulate, accumulate, accumulate, mergeCap_swap]
  | trans _ _ ih1 ih2 => intro acc; rw [ih1, ih2]

/-- C4: `unify_capabilities` is a join on the three-element total order
`fixed < structured < arbitrary`: commutative, associative and idempotent;
consequently the entry a pattern ends up with after merging a list of
yielded (pattern, capability) pairs is invariant under reordering of that
list. -/
theorem C4_unify_capabilities_join :
    (∀ a b : Capability, unify_capabilities a b = unify_capabilities b a) ∧
    (∀ a b c : Capability,
      unify_capabilities (unify_capabilities a b) c
        = unify_capabilities a (unify_capabilities b c)) ∧
    (∀ a : Capability, unify_capabilities a a = a) ∧
    (∀ (pairs1 pairs2 : List (String × Capability)) (m : PMap) (p : String),
      pairs1.Perm pairs2 → insertPairs m pairs1 p = insertPairs m pairs2 p) := by
  refine ⟨unify_capabilities_comm, unify_capabilities_assoc,
    unify_capabilities_idem, ?_⟩
  intro pairs1 pairs2 m p hperm
  rw [insertPairs_lookup, insertPairs_lookup]
  exact accumulate_perm (hperm.filterMap _) _


theorem C4_unify_capabilities_join_witness :
    permPairsA.Perm permPairsB ∧
    insertPairs (fun _ => none) permPairsA "github.event.a"
      = insertPairs (fun _ => none) permPairsB "github.event.a" := by
  constructor
  · decide
  · exact C4_unify_capabilities_join.2.2.2 permPairsA permPairsB
      (fun _ => none) "github.event.a" (by decide)

/-- C3: after a completed aggregation run, every pattern in the override
list maps to `fixed`, and every other pattern present in the final mapping
maps to the most permissive capability (maximal `capRank`) among those
contributed for it by the walked schemas. -/
theorem C3_aggregation_invariant
    (sets : List (String × List Schema)) (safe : List String)
    (h : (main_mapping sets safe).2 = none) (p : String) :
    (p ∈ safe → (main_mapping sets safe).1 p = some .fixed) ∧
    (p ∉ safe → ∀ c, (main_mapping sets safe).1 p = some c →
      c ∈ contribsOf (allPairs sets) p ∧
      ∀ d ∈ contribsOf (allPairs sets) p, capRank d ≤ capRank c) := by
  rcases hp : process_all sets (fun _ => none) with ⟨m, err⟩
  cases err with
  | some e =>
    simp only [main_mapping, hp] at h
    exact Option.noConfusion h
  | none =>
    have hmain : main_mapping sets safe = (applyOverrides m safe, none) := by
      simp only [main_mapping, hp]
    constructor
    · intro hmem
      rw [hmain]
      exact applyOverrides_lookup_mem safe m p hmem
    · intro hnot c hc
      rw [hmain] at hc
      simp only at hc
      rw [applyOverrides_lookup_not_mem safe m p hnot] at hc
      have hm : m p = accumulate none (contribsOf (allPairs sets) p) := by
        have h2 := process_all_lookup sets (fun _ => none) (by rw [hp]) p
        rwa [hp] at h2
      rw [hm] at hc
      exact accumulate_none_max _ c hc

theorem dotStarEq : (".*" : String) = "." ++ "*" := rfl

theorem wildcardEq (top : String) : top ++ ".*" = top ++ "." ++ "*" := by
  rw [dotStarEq, ← String.append_assoc]

theorem extendsPath_here (top : String) : extendsPath top top := Or.inl rfl

theorem extendsPath_wild (top : String) : extendsPath top (top ++ ".*") := by
  rw [wildcardEq]
  exact Or.inr ⟨"*", rfl⟩

theorem extendsPath_trans_seg (top x p : String)
    (h : extendsPath (top ++ "." ++ x) p) : extendsPath top p := by
  rcases h with h | ⟨suf, h⟩
  · exact Or.inr ⟨x, h⟩
  · refine Or.inr ⟨x ++ "." ++ suf, ?_⟩
    rw [h]
    simp [String.append_assoc]

theorem extendsPath_trans_wild (top p : String)
    (h : extendsPath (top ++ ".*") p) : extendsPath top p := by
  rw [wildcardEq] at h
  exact extendsPath_trans_seg top "*" p h

theorem mem_wseq {pr : String × Capability} {r : WalkResult}
    {k : Unit → WalkResult} (h : pr ∈ (wseq r k).1) :
    pr ∈ r.1 ∨ pr ∈ (k ()).1 := by
  rcases r with ⟨ps, err⟩
  cases err with
  | none =>
    rcases hk : k () with ⟨qs, e⟩
    simp [wseq, hk] at h
    rcases h with h | h
    · exact Or.inl h
    · exact Or.inr (by simp [hk]; exact h)
  | some e =>
    simp [wseq] at h
    exact Or.inl h

theorem objAdditional_shape (s : Schema) (top : String) :
    (objAdditional s top).1 = []
      ∨ (objAdditional s top).1 = [(top ++ ".*", .arbitrary)] := by
  unfold objAdditional
  split <;> simp

theorem strFormat_shape (s : Schema) (top : String) :
    (strFormat s top).1 = [] ∨ ∃ c, (strFormat s top).1 = [(top, c)] := by
  unfold strFormat
  split
  · exact Or.inr ⟨_, rfl⟩
  · exact Or.inr ⟨_, rfl⟩
  · exact Or.inr ⟨_, rfl⟩
  · exact Or.inr ⟨_, rfl⟩
  · split
    · exact Or.inr ⟨_, rfl⟩
    · exact Or.inr ⟨_, rfl⟩
  · exact Or.inl rfl

mutual

theorem walk_schema_extendsAll (s : Schema) (top : String) :
    ∀ pr ∈ (walk_schema s top).1, extendsPath top pr.1 := by
  rw [walk_schema_view]
  exact walk_typed_extendsAll s top (typView s.type?)
termination_by 8 * sizeOf s + 7
decreasing_by
  all_goals simp_wf
  all_goals omega

theorem walk_typed_extendsAll (s : Schema) (top : String) (typ : TypView) :
    ∀ pr ∈ (walk_typed s top typ).1, extendsPath top pr.1 := by
  rcases h1 : s.allOf? with _ | subs
  · rcases h2 : s.anyOf? with _ | subs
    · rcases h3 : s.oneOf? with _ | subs
      · rw [walk_typed_noComp s top typ h1 h2 h3]
        exact walk_match_extendsAll s top typ
      · rw [walk_typed_oneOf s top typ subs h1 h2 h3]
        exact walk_subs_extendsAll subs top
    · rw [walk_typed_anyOf s top typ subs h1 h2]
      exact walk_subs_extendsAll subs top
  · rw [walk_typed_allOf s top typ subs h1]
    exact walk_subs_extendsAll subs top
termination_by 8 * sizeOf s + 6
decreasing_by
  all_goals simp_wf
  all_goals first
  | omega
  | (cases s with
     | mk t a an o pr ap it fo en =>
       first
       | (simp [Schema.allOf?] at h1; subst h1; simp; omega)
       | (simp [Schema.anyOf?] at h2; subst h2; simp; omega)
       | (simp [Schema.oneOf?] at h3; subst h3; simp; omega))

theorem walk_match_extendsAll (s : Schema) (top : String) (typ : TypView) :
    ∀ pr ∈ (walk_match s top typ).1, extendsPath top pr.1 := by
  intro pr hpr
  rcases typ with _ | t | _
  · simp [walk_match] at hpr
  · by_cases ht1 : t = "object"
    · subst ht1
      have hw : walk_match s top (.single "object")
          = wseq (objProps s top) (fun _ => objAdditional s top) := by
        simp [walk_match]
      rw [hw] at hpr
      rcases mem_wseq hpr with h | h
      · exact objProps_extendsAll s top pr h
      · rcases objAdditional_shape s top with hs | hs
        · rw [hs] at h
          simp at h
        · rw [hs] at h
          simp at h
          rw [h]
          exact extendsPath_wild top
    by_cases ht2 : t = "array"
    · subst ht2
      have hw : walk_match s top (.single "array") = arrItems s top := by
        simp [walk_match]
      rw [hw] at hpr
      exact arrItems_extendsAll s top pr hpr
    by_cases ht3 : t = "boolean"
    · subst ht3
      simp [walk_match] at hpr
      rw [hpr]
      exact extendsPath_here top
    by_cases ht4 : t = "integer"
    · subst ht4
      simp [walk_match] at hpr
      rw [hpr]
      exact extendsPath_here top
    by_cases ht5 : t = "number"
    · subst ht5
      simp [walk_match] at hpr
      rw [hpr]
      exact extendsPath_here top
    by_cases ht6 : t = "null"
    · subst ht6
      simp [walk_match] at hpr
      rw [hpr]
      exact extendsPath_here top
    by_cases ht7 : t = "string"
    · subst ht7
      have hw : walk_match s top (.single "string") = strFormat s top := by
        simp [walk_match]
      rw [hw] at hpr
      rcases strFormat_shape s top with hs | ⟨c, hs⟩
      · rw [hs] at hpr
        simp at hpr
      · rw [hs] at hpr
        simp at hpr
        rw [hpr]
        exact extendsPath_here top
    · simp [walk_match, ht1, ht2, ht3, ht4, ht5, ht6, ht7] at hpr
  · simp [walk_match] at hpr
termination_by 8 * sizeOf s + 5
decreasing_by
  all_goals simp_wf
  all_goals omega

theorem objProps_extendsAll (s : Schema) (top : String) :
    ∀ pr ∈ (objProps s top).1, extendsPath top pr.1 := by
  rcases h4 : s.properties? with _ | props
  · rw [objProps_absent s top h4]
    intro pr hpr
    simp at hpr
    rw [hpr]
    exact extendsPath_here top
  · rcases props with _ | ⟨⟨prop, ps⟩, rest⟩
    · rw [objProps_nil s top h4]
      intro pr hpr
      simp at hpr
      rw [hpr]
      exact extendsPath_here top
    · rw [objProps_cons s top prop ps rest h4]
      exact walk_props_extendsAll ((prop, ps) :: rest) top
termination_by 8 * sizeOf s + 4
decreasing_by
  all_goals simp_wf
  cases s with
  | mk t a an o pr2 ap it fo en =>
    simp [Schema.properties?] at h4
    subst h4
    simp
    omega

theorem arrItems_extendsAll (s : Schema) (top : String) :
    ∀ pr ∈ (arrItems s top).1, extendsPath top pr.1 := by
  rcases h5 : s.items? with _ | it
  · rw [arrItems_absent s top h5]
    intro pr hpr
    simp at hpr
  · rw [arrItems_present s top it h5]
    by_cases he : it.isEmptyDict
    · rw [if_pos he]
      intro pr hpr
      simp at hpr
    · rw [if_neg he]
      intro pr hpr
      exact extendsPath_trans_wild top pr.1
        (walk_schema_extendsAll it (top ++ ".*") pr hpr)
termination_by 8 * sizeOf s + 4
decreasing_by
  all_goals simp_wf
  cases s with
  | mk t a an o pr2 ap it2 fo en =>
    simp [Schema.items?] at h5
    subst h5
    simp
    omega

theorem walk_props_extendsAll (l : List (String × Schema)) (top : String) :
    ∀ pr ∈ (walk_props l top).1, extendsPath top pr.1 := by
  rcases l with _ | ⟨⟨prop, ps⟩, rest⟩
  · intro pr hpr
    simp [walk_props] at hpr
  · intro pr hpr
    have hw : walk_props ((prop, ps) :: rest) top
        = wseq (walk_schema ps (top ++ "." ++ prop))
            (fun _ => walk_props rest top) := by
      simp [walk_props]
    rw [hw] at hpr
    rcases mem_wseq hpr with h | h
    · exact extendsPath_trans_seg top prop pr.1
        (walk_schema_extendsAll ps (top ++ "." ++ prop) pr h)
    · exact walk_props_extendsAll rest top pr h
termination_by 8 * sizeOf l
decreasing_by
  all_goals simp_wf
  all_goals omega

theorem walk_subs_extendsAll (l : List Schema) (top : String) :
    ∀ pr ∈ (walk_subs l top).1, extendsPath top pr.1 := by
  rcases l with _ | ⟨s, rest⟩
  · intro pr hpr
    simp [walk_subs] at hpr
  · intro pr hpr
    have hw : walk_subs (s :: rest) top
        = wseq (walk_schema s top) (fun _ => walk_subs rest top) := by
      simp [walk_subs]
    rw [hw] at hpr
    rcases mem_wseq hpr with h | h
    · exact walk_schema_extendsAll s top pr h
    · exact walk_subs_extendsAll rest top pr h
termination_by 8 * sizeOf l
decreasing_by
  all_goals simp_wf
  all_goals omega

end

theorem wseq_nil_right (r : WalkResult) : wseq r (fun _ => ([], none)) = r := by
  rcases r with ⟨ps, err⟩
  cases err <;> simp [wseq]

theorem walk_props_all_ok (l : List (String × Schema)) (top : String)
    (h : ∀ pr ∈ l, (walk_schema pr.2 (top ++ "." ++ pr.1)).2 = none) :
    walk_props l top
      = ((l.map (fun pr => (walk_schema pr.2 (top ++ "." ++ pr.1)).1)).flatten,
         none) := by
  induction l with
  | nil => simp [walk_props]
  | cons pr rest ih =>
    obtain ⟨prop, ps⟩ := pr
    have h1 := h (prop, ps) (List.mem_cons_self _ _)
    rcases hw : walk_schema ps (top ++ "." ++ prop) with ⟨pairs, err⟩
    rw [hw] at h1
    simp at h1
    subst h1
    have hw2 : walk_props ((prop, ps) :: rest) top
        = wseq (pairs, none) (fun _ => walk_props rest top) := by
      simp [walk_props, hw]
    rw [hw2, ih (fun q hq => h q (List.mem_cons_of_mem _ hq))]
    simp [wseq, hw]

theorem walk_subs_all_ok (l : List Schema) (top : String)
    (h : ∀ s' ∈ l, (walk_schema s' top).2 = none) :
    walk_subs l top
      = ((l.map (fun s' => (walk_schema s' top).1)).flatten, none) := by
  induction l with
  | nil => simp [walk_subs]
  | cons s rest ih =>
    have h1 := h s (List.mem_cons_self _ _)
    rcases hw : walk_schema s top with ⟨pairs, err⟩
    rw [hw] at h1
    simp at h1
    subst h1
    have hw2 : walk_subs (s :: rest) top
        = wseq (pairs, none) (fun _ => walk_subs rest top) := by
      simp [walk_subs, hw]
    rw [hw2, ih (fun q hq => h q (List.mem_cons_of_mem _ hq))]
    simp [wseq, hw]

theorem extendsPath_length {top p : String} (h : extendsPath top p) :
    top.length ≤ p.length := by
  rcases h with h | ⟨suf, h⟩
  · rw [h]
  · rw [h, String.length_append, String.length_append]
    have hd : ("." : String).length = 1 := rfl
    omega

theorem walk_props_pattern_long (l : List (String × Schema)) (top : String) :
    ∀ pr ∈ (walk_props l top).1, top.length < pr.1.length := by
  induction l with
  | nil =>
    intro pr hpr
    simp [walk_props] at hpr
  | cons hd rest ih =>
    obtain ⟨prop, ps⟩ := hd
    intro pr hpr
    have hw : walk_props ((prop, ps) :: rest) top
        = wseq (walk_schema ps (top ++ "." ++ prop))
            (fun _ => walk_props rest top) := by
      simp [walk_props]
    rw [hw] at hpr
    rcases mem_wseq hpr with h | h
    · have hx := extendsPath_length
        (walk_schema_extendsAll ps (top ++ "." ++ prop) pr h)
      rw [String.length_append, String.length_append] at hx
      have hd : ("." : String).length = 1 := rfl
      omega
    · exact ih pr h

theorem contribsOf_eq_nil {pairs : List (String × Capability)} {p : String}
    (h : p ∉ pairs.map Prod.fst) : contribsOf pairs p = [] := by
  rw [contribsOf, List.filterMap_eq_nil]
  intro pr hpr
  have : pr.1 ≠ p := by
    intro he
    exact h (by rw [← he]; exact List.mem_map_of_mem Prod.fst hpr)
  simp [this]

theorem accumulate_some_isSome (l : List Capability) (a : Capability) :
    ∃ c, accumulate (some a) l = some c := by
  induction l generalizing a with
  | nil => exact ⟨a, rfl⟩
  | cons x rest ih => exact ih (mergeCap (some a) x)

/-- C5: for a single-typed scalar schema node at path `p` (no composition
keys), `boolean`/`integer`/`number`/`null` yield exactly `(p, fixed)`;
`string` yields `(p, fixed)` for format `date-time`, `(p, structured)` for
`uri`/`uri-template`/`email`, `(p, fixed)` with no format but an enum,
`(p, arbitrary)` with neither, and raises on any other declared format. -/
theorem C5_scalar_leaves (s : Schema) (p : String)
    (hA : s.allOf? = none) (hAn : s.anyOf? = none) (hO : s.oneOf? = none) :
    ((s.type? = some (.single "boolean") ∨ s.type? = some (.single "integer") ∨
      s.type? = some (.single "number") ∨ s.type? = some (.single "null")) →
      walk_schema s p = ([(p, .fixed)], none)) ∧
    (s.type? = some (.single "string") →
      (s.format? = some "date-time" → walk_schema s p = ([(p, .fixed)], none)) ∧
      ((s.format? = some "uri" ∨ s.format? = some "uri-template" ∨
        s.format? = some "email") →
        walk_schema s p = ([(p, .structured)], none)) ∧
      (s.format? = none → s.hasEnum = true →
        walk_schema s p = ([(p, .fixed)], none)) ∧
      (s.format? = none → s.hasEnum = false →
        walk_schema s p = ([(p, .arbitrary)], none)) ∧
      (∀ f, s.format? = some f → f ≠ "date-time" → f ≠ "uri" →
        f ≠ "uri-template" → f ≠ "email" →
        walk_schema s p = ([], some "Unknown string format"))) := by
  constructor
  · rintro (ht | ht | ht | ht) <;>
      rw [walk_schema_view, ht, walk_typed_noComp s p _ hA hAn hO] <;>
      simp [typView, walk_match]
  · intro ht
    have hview : walk_schema s p = strFormat s p := by
      rw [walk_schema_view, ht, walk_typed_noComp s p _ hA hAn hO]
      simp [typView, walk_match]
    rw [hview]
    refine ⟨?_, ?_, ?_, ?_, ?_⟩
    · intro hf
      simp [strFormat, hf]
    · rintro (hf | hf | hf) <;> simp [strFormat, hf]
    · intro hf he
      simp [strFormat, hf, he]
    · intro hf he
      simp [strFormat, hf, he]
    · intro f hf h1 h2 h3 h4
      simp [strFormat, hf, h1, h2, h3, h4]

theorem C5_scalar_leaves_witness :
    strEnumSchemaW.format? = none ∧
    walk_schema strEnumSchemaW "github.event.action"
      = ([("github.event.action", Capability.fixed)], none) :=
  ⟨rfl,
    ((C5_scalar_leaves strEnumSchemaW "github.event.action" rfl rfl rfl).2
        rfl).2.2.1 rfl rfl⟩

theorem walk_match_object (s : Schema) (top : String) :
    walk_match s top (.single "object")
      = wseq (objProps s top) (fun _ => objAdditional s top) := by
  simp [walk_match]

theorem walk_match_array (s : Schema) (top : String) :
    walk_match s top (.single "array") = arrItems s top := by
  simp [walk_match]

theorem walk_match_string (s : Schema) (top : String) :
    walk_match s top (.single "string") = strFormat s top := by
  simp [walk_match]

theorem walk_schema_noComp_single (s : Schema) (top : String) (t : String)
    (ht : s.type? = some (.single t)) (hA : s.allOf? = none)
    (hAn : s.anyOf? = none) (hO : s.oneOf? = none) :
    walk_schema s top = walk_match s top (.single t) := by
  rw [walk_schema_view, ht, walk_typed_noComp s top _ hA hAn hO]
  simp [typView]

theorem evalStrPlain (top : String) :
    walk_schema strPlainSchemaW top = ([(top, .arbitrary)], none) := by
  rw [walk_schema_noComp_single strPlainSchemaW top "string" rfl rfl rfl rfl,
    walk_match_string]
  simp [strFormat, strPlainSchemaW, Schema.format?, Schema.hasEnum]

theorem evalBool (top : String) :
    walk_schema boolSchemaW top = ([(top, .fixed)], none) := by
  rw [walk_schema_noComp_single boolSchemaW top "boolean" rfl rfl rfl rfl]
  simp [walk_match]

theorem evalNameObj (top : String) :
    walk_schema nameObjSchemaW top
      = ([(top ++ "." ++ "name", .arbitrary)], none) := by
  rw [walk_schema_noComp_single nameObjSchemaW top "object" rfl rfl rfl rfl,
    walk_match_object,
    objProps_cons nameObjSchemaW top "name" strPlainSchemaW [] rfl]
  have hp : walk_props [("name", strPlainSchemaW)] top
      = wseq (walk_schema strPlainSchemaW (top ++ "." ++ "name"))
          (fun _ => walk_props [] top) := by
    simp [walk_props]
  have hnil : walk_props ([] : List (String × Schema)) top = ([], none) := by
    simp [walk_props]
  rw [hp, evalStrPlain]
  simp only [hnil]
  simp [wseq, objAdditional, nameObjSchemaW, Schema.additionalProperties?]

theorem evalArrObj (top : String) :
    walk_schema arrObjSchemaW top
      = ([(top ++ ".*" ++ "." ++ "name", .arbitrary)], none) := by
  rw [walk_schema_noComp_single arrObjSchemaW top "array" rfl rfl rfl rfl,
    walk_match_array,
    arrItems_present arrObjSchemaW top nameObjSchemaW rfl]
  have he : nameObjSchemaW.isEmptyDict = false := rfl
  rw [if_neg (by rw [he]; exact Bool.false_ne_true), evalNameObj]

/-- C6: for an object-typed node (no composition keys, and
`additionalProperties` absent or `false` so no wildcard leaf is added):
empty or absent `properties` yields exactly `(p, arbitrary)`; non-empty
`properties` yields exactly the concatenation of the per-property walks at
`p.<prop>`, and the object node contributes no leaf at `p` itself. -/
theorem C6_object_nodes (s : Schema) (p : String)
    (hA : s.allOf? = none) (hAn : s.anyOf? = none) (hO : s.oneOf? = none)
    (ht : s.type? = some (.single "object"))
    (hap : s.additionalProperties? = none ∨
      s.additionalProperties? = some (.inl false)) :
    ((s.properties? = none ∨ s.properties? = some []) →
      walk_schema s p = ([(p, .arbitrary)], none)) ∧
    (∀ props, s.properties? = some props → props ≠ [] →
      walk_schema s p = walk_props props p ∧
      ((∀ pr ∈ props, (walk_schema pr.2 (p ++ "." ++ pr.1)).2 = none) →
        walk_schema s p
          = ((props.map (fun pr => (walk_schema pr.2 (p ++ "." ++ pr.1)).1)).flatten,
             none)) ∧
      (∀ c, (p, c) ∉ (walk_schema s p).1)) := by
  have hadd : objAdditional s p = ([], none) := by
    rcases hap with h | h <;> simp [objAdditional, h]
  have hview : walk_schema s p = objProps s p := by
    rw [walk_schema_view, ht, walk_typed_noComp s p _ hA hAn hO]
    have hm : walk_match s p (typView (some (.single "object")))
        = wseq (objProps s p) (fun _ => objAdditional s p) := by
      simp [typView, walk_match]
    rw [hm, hadd, wseq_nil_right]
  constructor
  · rintro (hp | hp)
    · rw [hview, objProps_absent s p hp]
    · rw [hview, objProps_nil s p hp]
  · intro props hp hne
    rcases props with _ | ⟨⟨prop, ps⟩, rest⟩
    · exact absurd rfl hne
    · have hcons : walk_schema s p = walk_props ((prop, ps) :: rest) p := by
        rw [hview, objProps_cons s p prop ps rest hp]
      refine ⟨hcons, ?_, ?_⟩
      · intro hok
        rw [hcons, walk_props_all_ok _ p hok]
      · intro c hc
        rw [hcons] at hc
        have := walk_props_pattern_long ((prop, ps) :: rest) p (p, c) hc
        simp at this
      
theorem C6_object_nodes_witness :
    nameObjSchemaW.properties? = some [("name", strPlainSchemaW)] ∧
    walk_schema nameObjSchemaW "github.event"
      = ([("github.event" ++ "." ++ "name", Capability.arbitrary)], none) := by
  have hok : ∀ pr ∈ [("name", strPlainSchemaW)],
      (walk_schema pr.2 ("github.event" ++ "." ++ pr.1)).2 = none := by
    intro pr hpr
    simp at hpr
    rw [hpr]
    rw [evalStrPlain]
  have h := ((C6_object_nodes nameObjSchemaW "github.event" rfl rfl rfl rfl
      (Or.inl rfl)).2 [("name", strPlainSchemaW)] rfl (by simp)).2.1 hok
  refine ⟨rfl, ?_⟩
  rw [h]
  simp [evalStrPlain]

/-- C7: for an array-typed node (no composition keys): a present, non-empty
`items` schema makes the walk exactly the walk of `items` at `p.*`; an
absent or empty `items` raises before yielding any pair for that node. -/
theorem C7_array_nodes (s : Schema) (p : String)
    (hA : s.allOf? = none) (hAn : s.anyOf? = none) (hO : s.oneOf? = none)
    (ht : s.type? = some (.single "array")) :
    (s.items? = none → walk_schema s p = ([], some "Empty array schema")) ∧
    (∀ it, s.items? = some it → it.isEmptyDict = true →
      walk_schema s p = ([], some "Empty array schema")) ∧
    (∀ it, s.items? = some it → it.isEmptyDict = false →
      walk_schema s p = walk_schema it (p ++ ".*")) := by
  have hview : walk_schema s p = arrItems s p := by
    rw [walk_schema_view, ht, walk_typed_noComp s p _ hA hAn hO]
    simp [typView, walk_match]
  refine ⟨?_, ?_, ?_⟩
  · intro hi
    rw [hview, arrItems_absent s p hi]
  · intro it hi he
    rw [hview, arrItems_present s p it hi, if_pos he]
  · intro it hi he
    rw [hview, arrItems_present s p it hi, if_neg (by rw [he]; exact Bool.false_ne_true)]

theorem C7_array_nodes_witness :
    arrObjSchemaW.items? = some nameObjSchemaW ∧
    arrEmptySchemaW.items? = some emptySchemaW ∧
    walk_schema arrObjSchemaW "github.event"
      = walk_schema nameObjSchemaW ("github.event" ++ ".*") ∧
    walk_schema arrEmptySchemaW "github.event"
      = ([], some "Empty array schema") ∧
    walk_schema arrObjSchemaW "github.event"
      = ([("github.event" ++ ".*" ++ "." ++ "name", Capability.arbitrary)],
         none) := by
  have h1 := (C7_array_nodes arrObjSchemaW "github.event" rfl rfl rfl rfl).2.2
    nameObjSchemaW rfl rfl
  have h2 := (C7_array_nodes arrEmptySchemaW "github.event" rfl rfl rfl rfl).2.1
    emptySchemaW rfl rfl
  exact ⟨rfl, rfl, h1, h2, h1.trans (evalNameObj ("github.event" ++ ".*"))⟩

/-- C8: when a node (whose `type` is not a list) has composition keys, only
the first present key in the order `allOf`, `anyOf`, `oneOf` is honored:
the walk is exactly the sequential walk of the listed alternatives with the
unchanged path prefix, and the type-based dispatch is not reached. -/
theorem C8_composition_first_key (s : Schema) (top : String)
    (hnl : ∀ ts, s.type? ≠ some (.list ts)) :
    (∀ subs, s.allOf? = some subs →
      walk_schema s top = walk_subs subs top ∧
      ((∀ s' ∈ subs, (walk_schema s' top).2 = none) →
        walk_schema s top
          = ((subs.map (fun s' => (walk_schema s' top).1)).flatten, none))) ∧
    (s.allOf? = none → ∀ subs, s.anyOf? = some subs →
      walk_schema s top = walk_subs subs top ∧
      ((∀ s' ∈ subs, (walk_schema s' top).2 = none) →
        walk_schema s top
          = ((subs.map (fun s' => (walk_schema s' top).1)).flatten, none))) ∧
    (s.allOf? = none → s.anyOf? = none → ∀ subs, s.oneOf? = some subs →
      walk_schema s top = walk_subs subs top ∧
      ((∀ s' ∈ subs, (walk_schema s' top).2 = none) →
        walk_schema s top
          = ((subs.map (fun s' => (walk_schema s' top).1)).flatten, none))) := by
  refine ⟨?_, ?_, ?_⟩
  · intro subs h
    have hv : walk_schema s top = walk_subs subs top := by
      rw [walk_schema_view, walk_typed_allOf s top _ subs h]
    exact ⟨hv, fun hok => by rw [hv, walk_subs_all_ok subs top hok]⟩
  · intro hA subs h
    have hv : walk_schema s top = walk_subs subs top := by
      rw [walk_schema_view, walk_typed_anyOf s top _ subs hA h]
    exact ⟨hv, fun hok => by rw [hv, walk_subs_all_ok subs top hok]⟩
  · intro hA hAn subs h
    have hv : walk_schema s top = walk_subs subs top := by
      rw [walk_schema_view, walk_typed_oneOf s top _ subs hA hAn h]
    exact ⟨hv, fun hok => by rw [hv, walk_subs_all_ok subs top hok]⟩

theorem C8_composition_first_key_witness :
    allOfObjSchemaW.allOf? = some [boolSchemaW] ∧
    allOfObjSchemaW.properties? = some [("name", strPlainSchemaW)] ∧
    walk_schema allOfObjSchemaW "github.event"
      = ([("github.event", Capability.fixed)], none) := by
  have h := ((C8_composition_first_key allOfObjSchemaW "github.event"
      (by intro ts; simp [allOfObjSchemaW, Schema.type?])).1 [boolSchemaW] rfl).2
    (by
      intro s' hs'
      simp at hs'
      rw [hs']
      rw [evalBool])
  refine ⟨rfl, rfl, ?_⟩
  rw [h]
  simp [evalBool]

/-- C1 (code behavior at the claimed example): walking
`{"type": ["string", "null"]}` at `"p"` yields only the pair of the first
(`string`) branch; the `(p, fixed)` pair of the `null` branch promised by
the spec is absent, because the source's `return` sits inside the
`for subtype in typ:` loop and stops after the first alternative. -/
theorem C1_type_union_first_branch_only :
    walk_schema strNullSchemaW "p" = ([("p", Capability.arbitrary)], none) ∧
    ("p", Capability.fixed) ∉ (walk_schema strNullSchemaW "p").1 := by
  have hv : walk_schema strNullSchemaW "p"
      = walk_typed strNullSchemaW "p" (.single "string") := by
    rw [walk_schema_view]
    simp [typView, strNullSchemaW, Schema.type?]
  have h : walk_schema strNullSchemaW "p" = ([("p", Capability.arbitrary)], none) := by
    rw [hv, walk_typed_noComp strNullSchemaW "p" (.single "string") rfl rfl rfl,
      walk_match_string]
    simp [strFormat, strNullSchemaW, Schema.format?, Schema.hasEnum]
  refine ⟨h, ?_⟩
  rw [h]
  simp

/-- C2 (code behavior at the claimed failing input): an object schema whose
`additionalProperties` is the real constraining sub-schema
`{"type": "string"}` does not raise; it yields the object's own arbitrary
leaf and the `.*` wildcard leaf, because Python's `{}` mapping pattern in
`case True | {}:` matches every dict, so the `assert False` arm is
unreachable for dict values. -/
theorem C2_additionalProperties_subschema_no_assert :
    walk_schema apObjSchemaW "p"
      = ([("p", Capability.arbitrary), ("p" ++ ".*", Capability.arbitrary)],
         none) := by
  rw [walk_schema_noComp_single apObjSchemaW "p" "object" rfl rfl rfl rfl,
    walk_match_object,
    objProps_absent apObjSchemaW "p" rfl]
  simp [wseq, objAdditional, apObjSchemaW, Schema.additionalProperties?]

/-- C9: every (pattern, capability) pair yielded by `walk_schema(schema,
top)` has a pattern that is `top` itself or `top` extended by `"."` and a
suffix — the walker only ever extends the given prefix. -/
theorem C9_pattern_extends_top (s : Schema) (top : String) :
    ∀ pr ∈ (walk_schema s top).1,
      pr.1 = top ∨ ∃ suf, pr.1 = top ++ "." ++ suf :=
  walk_schema_extendsAll s top

theorem C9_pattern_extends_top_witness :
    ("github.event" ++ "." ++ "name", Capability.arbitrary)
        ∈ (walk_schema nameObjSchemaW "github.event").1 ∧
    (("github.event" ++ "." ++ "name" : String) = "github.event" ∨
      ∃ suf, ("github.event" ++ "." ++ "name" : String)
        = "github.event" ++ "." ++ suf) := by
  have hmem : ("github.event" ++ "." ++ "name", Capability.arbitrary)
      ∈ (walk_schema nameObjSchemaW "github.event").1 := by
    rw [evalNameObj]
    simp
  exact ⟨hmem,
    C9_pattern_extends_top nameObjSchemaW "github.event" _ hmem⟩

/-- C10: a completed `process_schemas` call returns the given mapping
updated: every entry whose pattern no walked schema emitted keeps its
value, and no existing key is removed (its entry is still present, possibly
unified with new contributions).  In-place mutation of the Python dict is
rendered here by the returned mapping being the updated input mapping. -/
theorem C10_process_schemas_frame (event : String) (ss : List Schema)
    (m : PMap) (h : (process_schemas event ss m).2 = none) :
    (∀ p, p ∉ (ss.flatMap (fun s => (walk_schema s "github.event").1)).map
        Prod.fst →
      (process_schemas event ss m).1 p = m p) ∧
    (∀ p c, m p = some c →
      ∃ c', (process_schemas event ss m).1 p = some c') := by
  constructor
  · intro p hp
    rw [process_schemas_lookup event ss m h p, contribsOf_eq_nil hp]
    rfl
  · intro p c hc
    rw [process_schemas_lookup event ss m h p, hc]
    exact accumulate_some_isSome _ c

theorem process_schemas_ok (event : String) (ss : List Schema) (m : PMap)
    (h : ∀ s ∈ ss, (walk_schema s "github.event").2 = none) :
    (process_schemas event ss m).2 = none := by
  induction ss generalizing m with
  | nil => rfl
  | cons s rest ih =>
    have h1 := h s (List.mem_cons_self _ _)
    rcases hw : walk_schema s "github.event" with ⟨pairs, err⟩
    rw [hw] at h1
    simp at h1
    subst h1
    simp only [process_schemas, hw]
    exact ih _ (fun q hq => h q (List.mem_cons_of_mem _ hq))

theorem process_all_ok (sets : List (String × List Schema)) (m : PMap)
    (h : ∀ st ∈ sets, ∀ s ∈ st.2, (walk_schema s "github.event").2 = none) :
    (process_all sets m).2 = none := by
  induction sets generalizing m with
  | nil => rfl
  | cons st rest ih =>
    obtain ⟨event, ss⟩ := st
    rcases hp : process_schemas event ss m with ⟨m', err⟩
    have h1 := process_schemas_ok event ss m (h (event, ss) (List.mem_cons_self _ _))
    rw [hp] at h1
    simp at h1
    subst h1
    simp only [process_all, hp]
    exact ih _ (fun q hq => h q (List.mem_cons_of_mem _ hq))

theorem main_mapping_ok (sets : List (String × List Schema))
    (safe : List String)
    (h : ∀ st ∈ sets, ∀ s ∈ st.2, (walk_schema s "github.event").2 = none) :
    (main_mapping sets safe).2 = none := by
  rcases hp : process_all sets (fun _ => none) with ⟨m, err⟩
  have h1 := process_all_ok sets (fun _ => none) h
  rw [hp] at h1
  simp at h1
  subst h1
  simp only [main_mapping, hp]

theorem C10_process_schemas_frame_witness :
    (process_schemas "push" [boolSchemaW] keepMapW).2 = none ∧
    (process_schemas "push" [boolSchemaW] keepMapW).1 "keep.me"
      = keepMapW "keep.me" := by
  have hnone : (process_schemas "push" [boolSchemaW] keepMapW).2 = none := by
    refine process_schemas_ok "push" [boolSchemaW] keepMapW ?_
    intro s hs
    simp at hs
    rw [hs, evalBool]
  have hmem : "keep.me" ∉
      (([boolSchemaW].flatMap (fun s => (walk_schema s "github.event").1)).map
        Prod.fst) := by
    simp [evalBool]
  exact ⟨hnone,
    (C10_process_schemas_frame "push" [boolSchemaW] keepMapW hnone).1
      "keep.me" hmem⟩

theorem C3_aggregation_invariant_witness :
    (main_mapping setsW safeW).2 = none ∧
    (main_mapping setsW safeW).1 "zizmor.known" = some Capability.fixed := by
  have hnone : (main_mapping setsW safeW).2 = none := by
    refine main_mapping_ok setsW safeW ?_
    intro st hst s hs
    simp [setsW] at hst
    rw [hst] at hs
    simp at hs
    rw [hs, evalBool]
  exact ⟨hnone,
    (C3_aggregation_invariant setsW safeW hnone "zizmor.known").1
      (by simp [safeW])⟩
